import Mathlib

set_option maxRecDepth 16000

/-!
Verification of the Paillier encrypted-counter core (`src/openssl_drv.c`)
against its natural-language specification.  The OpenSSL `BIGNUM` values are
embedded as `Nat` (all values handled by the driver are non-negative) except
where the source performs signed subtraction (`BN_sub`), which is embedded
over `Int`.  Randomized sampling loops (`BN_rand_range` rejection loops) are
embedded as a scan of an explicit stream of drawn values.
-/

namespace Encounter

/-- Modelled from the spec: the error enumeration of §7 (defined in
`encounter.h`, which is not part of `src/`): OK is success, the others are
the error classes of the taxonomy. -/
inductive encounter_err_t where
  | ENCOUNTER_OK
  | ENCOUNTER_ERR_MEM
  | ENCOUNTER_ERR_PARAM
  | ENCOUNTER_ERR_CRYPTO
  | ENCOUNTER_ERR_DATA
  | ENCOUNTER_ERR_OVERFLOW
  | ENCOUNTER_ERR_OS
  deriving DecidableEq, Repr

export encounter_err_t (ENCOUNTER_OK ENCOUNTER_ERR_MEM ENCOUNTER_ERR_PARAM
  ENCOUNTER_ERR_CRYPTO ENCOUNTER_ERR_DATA ENCOUNTER_ERR_OVERFLOW
  ENCOUNTER_ERR_OS)

/-- Modelled from the spec: the numeric value a C compiler assigns to each
enumerator of `encounter_err_t` (the enum definition lives in `encounter.h`,
outside `src/`).  §7 lists the taxonomy with `OK` first; a C `enum` without
explicit initializers numbers its enumerators consecutively from 0, so the
success value `ENCOUNTER_OK` is 0 (this is also forced by the driver itself:
`ctx->rc` of a `calloc`-zeroed context must read as success). -/
def encounter_err_t.cValue : encounter_err_t → Nat
  | ENCOUNTER_OK => 0
  | ENCOUNTER_ERR_MEM => 1
  | ENCOUNTER_ERR_PARAM => 2
  | ENCOUNTER_ERR_CRYPTO => 3
  | ENCOUNTER_ERR_DATA => 4
  | ENCOUNTER_ERR_OVERFLOW => 5
  | ENCOUNTER_ERR_OS => 6

/-- Paillier public key: `n`, generator `g`, `nsquared`
(struct `paillier_pubK`). -/
structure PaillierPubK where
  n : Nat
  g : Nat
  nsquared : Nat
  deriving DecidableEq, Repr

/-- Paillier private key (struct `paillier_privK`). -/
structure PaillierPrivK where
  p : Nat
  q : Nat
  psquared : Nat
  qsquared : Nat
  pinvmod2tow : Nat
  qinvmod2tow : Nat
  hsubp : Nat
  hsubq : Nat
  qInv : Nat
  deriving DecidableEq, Repr, Inhabited

/-- A cryptographic counter (struct `ec_count_t`): the ciphertext `c` and the
time of last modification.  The version tag is constant
(`ENCOUNTER_COUNT_PAILLIER_V1`) and omitted. -/
structure ec_count_t where
  c : Nat
  lastUpdated : Nat
  deriving DecidableEq, Repr

/-! ### OpenSSL BIGNUM primitives -/

/-- Fuel-driven modular exponentiation by squaring; `modExpFuel b m f e`
computes `b ^ e % m` provided `e < 2 ^ f`.  (Fuel keeps the recursion
structural so that concrete evaluations reduce in the kernel.) -/
def modExpFuel (b m : Nat) : Nat → Nat → Nat
  | 0, _ => 1 % m
  | f + 1, e =>
    if e = 0 then 1 % m
    else
      let h := modExpFuel b m f (e / 2)
      if e % 2 = 0 then h * h % m else h * h % m * b % m

/-- `BN_mod_exp`: `modExp b e m = b ^ e % m`. -/
def modExp (b e m : Nat) : Nat := modExpFuel b m (e + 1) e

theorem modExpFuel_eq (b m : Nat) :
    ∀ f e, e < 2 ^ f → modExpFuel b m f e = b ^ e % m := by
  intro f
  induction f with
  | zero =>
    intro e he
    have h0 : e = 0 := by simpa using he
    subst h0
    simp [modExpFuel]
  | succ f ih =>
    intro e he
    rcases Nat.eq_zero_or_pos e with h0 | h0
    · subst h0; simp [modExpFuel]
    · have h0' : e ≠ 0 := Nat.pos_iff_ne_zero.mp h0
      have hdiv : e / 2 < 2 ^ f := by
        apply Nat.div_lt_of_lt_mul
        have : (2 : Nat) ^ (f + 1) = 2 * 2 ^ f := by ring
        omega
      have hrec := ih (e / 2) hdiv
      rcases Nat.mod_two_eq_zero_or_one e with hpar | hpar
      · have hee : e / 2 + e / 2 = e := by omega
        simp only [modExpFuel, h0', if_false, hpar, if_pos rfl]
        rw [hrec, ← Nat.mul_mod, ← pow_add, hee]
        simp
      · have hee : e / 2 + e / 2 + 1 = e := by omega
        have hne : ¬ (e % 2 = 0) := by omega
        simp only [modExpFuel, h0', if_false, hne]
        rw [hrec, ← Nat.mul_mod, ← pow_add, Nat.mod_mul_mod, ← pow_succ, hee]

theorem modExp_eq (b e m : Nat) : modExp b e m = b ^ e % m := by
  apply modExpFuel_eq
  calc e < 2 ^ e := Nat.lt_two_pow e
  _ ≤ 2 ^ (e + 1) := Nat.pow_le_pow_right (by norm_num) (Nat.le_succ e)

/-- Fuel-driven bit length; `bitlenFuel f n` is the bit length of `n`
provided `n < 2 ^ f`. -/
def bitlenFuel : Nat → Nat → Nat
  | 0, _ => 0
  | f + 1, n => if n = 0 then 0 else bitlenFuel f (n / 2) + 1

/-- `BN_num_bits`: the bit length of a (non-negative) BIGNUM. -/
def BN_num_bits (n : Nat) : Nat := bitlenFuel (n + 1) n

theorem bitlenFuel_lt (f : Nat) :
    ∀ n, n < 2 ^ f → n < 2 ^ bitlenFuel f n := by
  induction f with
  | zero =>
    intro n hn
    simpa [bitlenFuel] using hn
  | succ f ih =>
    intro n hn
    rcases Nat.eq_zero_or_pos n with h0 | h0
    · subst h0; simp [bitlenFuel]
    · have h0' : n ≠ 0 := Nat.pos_iff_ne_zero.mp h0
      have hdiv : n / 2 < 2 ^ f := by
        apply Nat.div_lt_of_lt_mul
        have : (2 : Nat) ^ (f + 1) = 2 * 2 ^ f := by ring
        omega
      have := ih (n / 2) hdiv
      simp only [bitlenFuel, h0', if_false]
      have h2 : (2 : Nat) ^ (bitlenFuel f (n / 2) + 1)
          = 2 * 2 ^ bitlenFuel f (n / 2) := by ring
      omega

/-- Every `n` is below `2 ^ BN_num_bits n`. -/
theorem lt_two_pow_BN_num_bits (n : Nat) : n < 2 ^ BN_num_bits n := by
  apply bitlenFuel_lt
  calc n < 2 ^ n := Nat.lt_two_pow n
  _ ≤ 2 ^ (n + 1) := Nat.pow_le_pow_right (by norm_num) (Nat.le_succ n)

/-- `BN_mask_bits a w` truncates `a` to its low `w` bits: OpenSSL masks the
magnitude and keeps the sign. -/
def BN_mask_bits (a : Int) (w : Nat) : Int :=
  if a < 0 then -(((-a) % (2 ^ w : Nat)) : Int) else a % ((2 ^ w : Nat) : Int)

/-- `BN_mod_inverse a m`: the inverse of `a` modulo `m` when it exists
(OpenSSL returns failure when `gcd(a, m) ≠ 1`). -/
def BN_mod_inverse (a m : Nat) : Option Nat :=
  (List.range m).find? (fun x => a * x % m = 1)

/-- `BN_cmp`, restricted to its use as a three-way comparison result. -/
def BN_cmp (a b : Int) : Int :=
  if a < b then -1 else if a = b then 0 else 1

/-! ### Domain predicates, fast-L and fast-CRT -/

/-- `IsInZnstar` (`openssl_drv.c`): the flag is initialized to `true`,
`a ≥ n` jumps to the exit with the flag still `true`, otherwise the flag is
cleared when `gcd(a, n) ≠ 1`. -/
def IsInZnstar (a n : Nat) : Bool :=
  if a ≥ n then true else Nat.gcd a n = 1

/-- `IsInZnSquaredstar` (`openssl_drv.c`): the flag is initialized to
`false`, `a ≥ n²` jumps to the exit with the flag still `false`, otherwise
the flag is set when `gcd(a, n²) = 1`. -/
def IsInZnSquaredstar (a nsquared : Nat) : Bool :=
  if a ≥ nsquared then false else Nat.gcd a nsquared = 1

/-- `encounter_crypto_openssl_fastL`: `t = (u − 1)` masked to
`w = bitlen(x)` bits, then `y = t · xinv` masked to `w` bits. -/
def fastL (u x xinv : Int) : Int :=
  let w := BN_num_bits x.natAbs
  let t := BN_mask_bits (u - 1) w
  BN_mask_bits (t * xinv) w

/-- `encounter_crypto_openssl_fastCRT` (Garner recombination):
`t = g1 − g2`; if `t < 0` then `t ← t + p`; `h = t·qInv mod p`;
`g = g2 + q·h`. -/
def fastCRT (g1 p g2 q qInv : Int) : Int :=
  let t := g1 - g2
  let t := if t < 0 then t + p else t
  let h := t * qInv % p
  g2 + q * h

/-! ### Randomized sampling

`BN_rand_range` draws are modelled as an explicit stream (list) of values;
the rejection loop takes the first draw accepted by `IsInZnstar`.  An
exhausted stream models a run in which `BN_rand_range` reports failure. -/

/-- The sampling loop of `paillierEncrypt`, `paillierUpdate`, `paillierMul`,
`paillierAddSub`, `touch` and `private_cmp2`: draw `r` below `n` until
`IsInZnstar` accepts it. -/
def sampleZnStar (n : Nat) : List Nat → Option Nat
  | [] => none
  | r :: rest => if IsInZnstar r n then some r else sampleZnStar n rest

/-! ### Encryption -/

/-- `encounter_crypto_openssl_paillierEncrypt`: `t₁ = g^m mod n²`, sample
`r ∈ Z*_n`, `t₂ = r^n mod n²`, ciphertext `t₁·t₂ mod n²`.  `none` models the
run in which the sampling loop's generator fails. -/
def paillierEncrypt (pubK : PaillierPubK) (m : Nat) (rs : List Nat) :
    Option Nat :=
  let tmp := modExp pubK.g m pubK.nsquared
  match sampleZnStar pubK.n rs with
  | none => none
  | some r =>
    let tmp2 := modExp r pubK.n pubK.nsquared
    some (tmp * tmp2 % pubK.nsquared)

/-! ### Homomorphic updates -/

/-- `encounter_crypto_openssl_paillierUpdate` (the worker of `inc`/`dec`):
pre-multiply the ciphertext by `g^amount` (or its inverse when
decrementing; `amount = 1` copies `g` directly), then apply a fresh `r^n`
factor.  Returns the error code and the (possibly partially updated)
ciphertext. -/
def paillierUpdate (c : Nat) (pubK : PaillierPubK) (amount : Nat)
    (decrement : Bool) (rs : List Nat) : encounter_err_t × Nat :=
  let tmp2 := if amount = 1 then pubK.g else modExp pubK.g amount pubK.nsquared
  match (if decrement then BN_mod_inverse tmp2 pubK.nsquared else some tmp2) with
  | none => (ENCOUNTER_ERR_CRYPTO, c)
  | some tmp2 =>
    let c1 := c * tmp2 % pubK.nsquared
    match sampleZnStar pubK.n rs with
    | none => (ENCOUNTER_ERR_CRYPTO, c1)
    | some r =>
      let tmp := modExp r pubK.n pubK.nsquared
      (ENCOUNTER_OK, c1 * tmp % pubK.nsquared)

/-- The guard `!BN_rand(...) != ENCOUNTER_OK` as written in
`paillierMul` and in the blinding branch of `private_cmp2`: the C `!` of the
`BN_rand` status (1 on success, 0 on failure) compared against the C value
of `ENCOUNTER_OK`.  `true` means the guard takes the error branch. -/
def bnRandGuardFails (randOk : Bool) : Bool :=
  (if (if randOk then (1 : Nat) else 0) = 0 then (1 : Nat) else 0)
    ≠ ENCOUNTER_OK.cValue

/-- `encounter_crypto_openssl_paillierMul` (the worker of `mul`/`mul_rand`):
exponentiate the ciphertext by `amount`, or by the drawn randomizer `ρ` when
`rand` is set, then apply a fresh `r^n` factor.  `randOk` is the status
reported by `BN_rand` and `ρ` the value it drew. -/
def paillierMul (c : Nat) (pubK : PaillierPubK) (amount : Nat) (rand : Bool)
    (randOk : Bool) (ρ : Nat) (rs : List Nat) : encounter_err_t × Nat :=
  if rand ∧ bnRandGuardFails randOk then (ENCOUNTER_ERR_CRYPTO, c)
  else
    let m := if rand then ρ else amount
    let c1 := modExp c m pubK.nsquared
    match sampleZnStar pubK.n rs with
    | none => (ENCOUNTER_ERR_CRYPTO, c1)
    | some r =>
      let tmp := modExp r pubK.n pubK.nsquared
      (ENCOUNTER_OK, c1 * tmp % pubK.nsquared)

/-- `encounter_crypto_openssl_paillierAddSub`: multiply the first ciphertext
by the second (or by its inverse mod `n²` when subtracting), then apply a
fresh `r^n` factor. -/
def paillierAddSub (c b : Nat) (pubK : PaillierPubK) (subtract : Bool)
    (rs : List Nat) : encounter_err_t × Nat :=
  match (if subtract then BN_mod_inverse b pubK.nsquared else some b) with
  | none => (ENCOUNTER_ERR_CRYPTO, c)
  | some tmp2 =>
    let c1 := c * tmp2 % pubK.nsquared
    match sampleZnStar pubK.n rs with
    | none => (ENCOUNTER_ERR_CRYPTO, c1)
    | some r =>
      let tmp := modExp r pubK.n pubK.nsquared
      (ENCOUNTER_OK, c1 * tmp % pubK.nsquared)

/-! ### Counter-level operations

Each operation receives the current time `now`; the source stamps
`counter->lastUpdated` with `time()` on the common exit path after the
error label. -/

/-- `encounter_crypto_openssl_inc`: on `paillierUpdate` failure the error is
reported as a crypto error; the timestamp is written on the common exit
path in either case. -/
def encounter_crypto_openssl_inc (counter : ec_count_t)
    (pubK : PaillierPubK) (a : Nat) (rs : List Nat) (now : Nat) :
    encounter_err_t × ec_count_t :=
  let r := paillierUpdate counter.c pubK a false rs
  ((if r.1 = ENCOUNTER_OK then ENCOUNTER_OK else ENCOUNTER_ERR_CRYPTO),
    { c := r.2, lastUpdated := now })

/-- `encounter_crypto_openssl_dec`. -/
def encounter_crypto_openssl_dec (counter : ec_count_t)
    (pubK : PaillierPubK) (a : Nat) (rs : List Nat) (now : Nat) :
    encounter_err_t × ec_count_t :=
  let r := paillierUpdate counter.c pubK a true rs
  ((if r.1 = ENCOUNTER_OK then ENCOUNTER_OK else ENCOUNTER_ERR_CRYPTO),
    { c := r.2, lastUpdated := now })

/-- `encounter_crypto_openssl_mul`. -/
def encounter_crypto_openssl_mul (counter : ec_count_t)
    (pubK : PaillierPubK) (a : Nat) (rs : List Nat) (now : Nat) :
    encounter_err_t × ec_count_t :=
  let r := paillierMul counter.c pubK a false true 0 rs
  ((if r.1 = ENCOUNTER_OK then ENCOUNTER_OK else ENCOUNTER_ERR_CRYPTO),
    { c := r.2, lastUpdated := now })

/-- `encounter_crypto_openssl_mul_rand`: `randOk` is the status reported by
`BN_rand` for the randomizer draw and `ρ` the drawn value. -/
def encounter_crypto_openssl_mul_rand (counter : ec_count_t)
    (pubK : PaillierPubK) (randOk : Bool) (ρ : Nat) (rs : List Nat)
    (now : Nat) : encounter_err_t × ec_count_t :=
  let r := paillierMul counter.c pubK 0 true randOk ρ rs
  ((if r.1 = ENCOUNTER_OK then ENCOUNTER_OK else ENCOUNTER_ERR_CRYPTO),
    { c := r.2, lastUpdated := now })

/-- `encounter_crypto_openssl_add` (mutates the first counter). -/
def encounter_crypto_openssl_add (encountA encountB : ec_count_t)
    (pubK : PaillierPubK) (rs : List Nat) (now : Nat) :
    encounter_err_t × ec_count_t :=
  let r := paillierAddSub encountA.c encountB.c pubK false rs
  ((if r.1 = ENCOUNTER_OK then ENCOUNTER_OK else ENCOUNTER_ERR_CRYPTO),
    { c := r.2, lastUpdated := now })

/-- `encounter_crypto_openssl_sub` (mutates the first counter). -/
def encounter_crypto_openssl_sub (encountA encountB : ec_count_t)
    (pubK : PaillierPubK) (rs : List Nat) (now : Nat) :
    encounter_err_t × ec_count_t :=
  let r := paillierAddSub encountA.c encountB.c pubK true rs
  ((if r.1 = ENCOUNTER_OK then ENCOUNTER_OK else ENCOUNTER_ERR_CRYPTO),
    { c := r.2, lastUpdated := now })

/-- `encounter_crypto_openssl_touch`: re-randomize with a fresh `r^n`
factor.  (In `touch` the timestamp is written inside the success path
only.) -/
def encounter_crypto_openssl_touch (counter : ec_count_t)
    (pubK : PaillierPubK) (rs : List Nat) (now : Nat) :
    encounter_err_t × ec_count_t :=
  match sampleZnStar pubK.n rs with
  | none => (ENCOUNTER_ERR_CRYPTO, counter)
  | some r =>
    let tmp := modExp r pubK.n pubK.nsquared
    (ENCOUNTER_OK,
      { c := counter.c * tmp % pubK.nsquared, lastUpdated := now })

/-- `encounter_crypto_openssl_dup`: copy the ciphertext and `touch` the
duplicate; on `touch` failure no duplicate is produced. -/
def encounter_crypto_openssl_dup (pubK : PaillierPubK)
    (srcCnt : ec_count_t) (rs : List Nat) (now : Nat) :
    encounter_err_t × Option ec_count_t :=
  match encounter_crypto_openssl_touch ⟨srcCnt.c, srcCnt.lastUpdated⟩ pubK rs now with
  | (ENCOUNTER_OK, t) => (ENCOUNTER_OK, some t)
  | (rc, _) => (rc, none)

/-! ### Decryption -/

/-- The CRT decryption pipeline shared verbatim by
`encounter_crypto_openssl_decrypt` and `encounter_crypto_openssl_private_cmp2`:
`m_p = L_p(c^{p−1} mod p²)·h_p mod p`, symmetrically `m_q`, then Garner
recombination. -/
def paillierCRTplaintext (privK : PaillierPrivK) (c : Nat) : Int :=
  let pmin1 := privK.p - 1
  let qmin1 := privK.q - 1
  let up := modExp (c % privK.psquared) pmin1 privK.psquared
  let lp := fastL (up : Int) (privK.p : Int) (privK.pinvmod2tow : Int)
  let msubp := lp * (privK.hsubp : Int) % (privK.p : Int)
  let uq := modExp (c % privK.qsquared) qmin1 privK.qsquared
  let lq := fastL (uq : Int) (privK.q : Int) (privK.qinvmod2tow : Int)
  let msubq := lq * (privK.hsubq : Int) % (privK.q : Int)
  fastCRT msubp (privK.p : Int) msubq (privK.q : Int) (privK.qInv : Int)

/-- `ULLONG_MAX`. -/
def ULLONG_MAX : Nat := 2 ^ 64 - 1

/-- The projection `BN_bn2dec` followed by `strtoull`: a value above
`ULLONG_MAX` saturates to `ULLONG_MAX`; a negative value's magnitude is
parsed and then negated modulo `2^64` (C unsigned conversion). -/
def strtoull_dec (m : Int) : Nat :=
  if m < 0 then
    if m.natAbs > ULLONG_MAX then ULLONG_MAX
    else (2 ^ 64 - m.natAbs) % 2 ^ 64
  else min m.toNat ULLONG_MAX

/-- `encounter_crypto_openssl_decrypt`: CRT decryption followed by the
64-bit projection; the projected value is written to the out-parameter,
then `ENCOUNTER_ERR_OVERFLOW` is reported whenever it equals
`ULLONG_MAX`. -/
def encounter_crypto_openssl_decrypt (privK : PaillierPrivK) (c : Nat) :
    encounter_err_t × Nat :=
  let m := paillierCRTplaintext privK c
  let a := strtoull_dec m
  if a = ULLONG_MAX then (ENCOUNTER_ERR_OVERFLOW, a) else (ENCOUNTER_OK, a)

/-! ### Comparisons -/

/-- `encounter_crypto_openssl_cmp`: `prev_rc` is the context's last-error
slot on entry (`ctx->rc`), `result` the out-parameter's value on entry.
When both private keys are absent the code jumps to the exit label without
storing an error code, so the stale `ctx->rc` is returned. -/
def encounter_crypto_openssl_cmp (prev_rc : encounter_err_t)
    (a b : ec_count_t) (privKA privKB : Option PaillierPrivK)
    (result : Int) : encounter_err_t × Int :=
  match privKA, privKB with
  | none, none => (prev_rc, result)
  | pa, pb =>
    let ka := pa.getD (pb.getD default)
    let kb := pb.getD (pa.getD default)
    let da := encounter_crypto_openssl_decrypt ka a.c
    if da.1 ≠ ENCOUNTER_OK then (ENCOUNTER_ERR_CRYPTO, result)
    else
      let db := encounter_crypto_openssl_decrypt kb b.c
      if db.1 ≠ ENCOUNTER_OK then (ENCOUNTER_ERR_CRYPTO, result)
      else (ENCOUNTER_OK, BN_cmp (da.2 : Int) (db.2 : Int))

/-- `encounter_crypto_openssl_private_cmp2`: duplicate `a`, blind the
duplicate with `g^ρ` and a fresh `r^n` factor, subtract `b`, decrypt by the
inline CRT pipeline and compare the plaintext against `ρ`.  `randOk` is the
status reported by `BN_rand` for the `ρ` draw. -/
def encounter_crypto_openssl_private_cmp2 (pubK : PaillierPubK)
    (privK : PaillierPrivK) (a b : ec_count_t) (rs_dup : List Nat)
    (randOk : Bool) (ρ : Nat) (rs_blind rs_sub : List Nat) (now : Nat) :
    encounter_err_t × Option Int :=
  match encounter_crypto_openssl_dup pubK a rs_dup now with
  | (_, none) => (ENCOUNTER_ERR_CRYPTO, none)
  | (_, some diffAB) =>
    if bnRandGuardFails randOk then (ENCOUNTER_ERR_CRYPTO, none)
    else
      let tmp2 := modExp pubK.g ρ pubK.nsquared
      let d1 := diffAB.c * tmp2 % pubK.nsquared
      match sampleZnStar pubK.n rs_blind with
      | none => (ENCOUNTER_ERR_CRYPTO, none)
      | some r =>
        let tmp := modExp r pubK.n pubK.nsquared
        let d2 := d1 * tmp % pubK.nsquared
        let s := encounter_crypto_openssl_sub ⟨d2, now⟩ b pubK rs_sub now
        if s.1 ≠ ENCOUNTER_OK then (ENCOUNTER_ERR_CRYPTO, none)
        else
          let m := paillierCRTplaintext privK s.2.c
          (ENCOUNTER_OK, some (BN_cmp m (ρ : Int)))

/-! ### Helper lemmas on the embedded primitives -/

theorem sampleZnStar_accepts {n : Nat} :
    ∀ {rs : List Nat} {r : Nat}, sampleZnStar n rs = some r →
      r ∈ rs ∧ IsInZnstar r n = true := by
  intro rs
  induction rs with
  | nil => intro r h; simp [sampleZnStar] at h
  | cons x rest ih =>
    intro r h
    by_cases hx : IsInZnstar x n = true
    · rw [sampleZnStar, if_pos hx] at h
      obtain rfl : x = r := by injection h
      exact ⟨List.mem_cons_self _ _, hx⟩
    · rw [sampleZnStar, if_neg hx] at h
      obtain ⟨hmem, hacc⟩ := ih h
      exact ⟨List.mem_cons_of_mem _ hmem, hacc⟩

theorem sampleZnStar_coprime {n : Nat} {rs : List Nat} {r : Nat}
    (hs : sampleZnStar n rs = some r) (hlt : ∀ x ∈ rs, x < n) :
    r < n ∧ Nat.Coprime r n := by
  obtain ⟨hmem, hacc⟩ := sampleZnStar_accepts hs
  have hr : r < n := hlt r hmem
  refine ⟨hr, ?_⟩
  rw [IsInZnstar, if_neg (by omega)] at hacc
  exact of_decide_eq_true hacc

theorem BN_mod_inverse_spec {a m v : Nat}
    (h : BN_mod_inverse a m = some v) : a * v % m = 1 ∧ v < m := by
  unfold BN_mod_inverse at h
  have hpred := List.find?_some h
  refine ⟨of_decide_eq_true (by simpa using hpred), ?_⟩
  exact List.mem_range.mp (List.mem_of_find?_eq_some h)

theorem BN_mod_inverse_exists {a m : Nat} (hm : 1 < m)
    (h : Nat.Coprime a m) : ∃ v, BN_mod_inverse a m = some v := by
  obtain ⟨x, hx⟩ := Nat.exists_mul_emod_eq_one_of_coprime h hm
  have hx' : a * (x % m) % m = 1 := by
    rw [Nat.mul_mod, Nat.mod_mod_of_dvd _ dvd_rfl, ← Nat.mul_mod, hx]
  have hsome : (BN_mod_inverse a m).isSome := by
    rw [BN_mod_inverse, List.find?_isSome]
    exact ⟨x % m, List.mem_range.mpr (Nat.mod_lt _ (by omega)), by
      simpa using hx'⟩
  obtain ⟨v, hv⟩ := Option.isSome_iff_exists.mp hsome
  exact ⟨v, hv⟩

theorem BN_mask_bits_natCast (a w : Nat) :
    BN_mask_bits (a : Int) w = ((a % 2 ^ w : Nat) : Int) := by
  rw [BN_mask_bits, if_neg (by omega)]
  push_cast
  rfl

/-- What `fastL` computes on the inputs arising in Paillier decryption:
if `u ≡ 1 (mod x)`, the quotient `(u − 1)/x` is below `x`, and `xinv`
inverts `x` modulo `2^bitlen(x)`, then `fastL` returns the quotient. -/
theorem fastL_spec {u x xinv : Nat} (hu : 1 ≤ u)
    (hinv : x * xinv % 2 ^ BN_num_bits x = 1)
    (hmod : u ≡ 1 [MOD x]) (hq : (u - 1) / x < x) :
    fastL (u : Int) (x : Int) (xinv : Int) = (((u - 1) / x : Nat) : Int) := by
  have hx0 : x ≠ 0 := by
    rintro rfl
    simp at hinv
  have hxlt : x < 2 ^ BN_num_bits x := lt_two_pow_BN_num_bits x
  obtain ⟨k, hk⟩ : x ∣ u - 1 := (Nat.modEq_iff_dvd' hu).mp hmod.symm
  have hkq : (u - 1) / x = k := by
    rw [hk]; exact Nat.mul_div_cancel_left k (Nat.pos_of_ne_zero hx0)
  rw [hkq] at hq ⊢
  have hcast : (u : Int) - 1 = ((u - 1 : Nat) : Int) := by
    push_cast [hu]; ring
  rw [fastL, Int.natAbs_ofNat, hcast, BN_mask_bits_natCast,
    show ((((u - 1) % 2 ^ BN_num_bits x : Nat) : Int) * (xinv : Int))
        = ((((u - 1) % 2 ^ BN_num_bits x) * xinv : Nat) : Int) by push_cast; ring,
    BN_mask_bits_natCast]
  rw [Nat.cast_inj]
  rw [Nat.mod_mul_mod, hk,
    show x * k * xinv = k * (x * xinv) by ring,
    Nat.mul_mod, hinv, mul_one, Nat.mod_mod_of_dvd _ dvd_rfl,
    Nat.mod_eq_of_lt (lt_trans hq hxlt)]

/-- What `fastCRT` computes: for residues `g1 ∈ [0, p)` and `g2 ∈ [0, q)`
with `qInv` inverting `q` modulo `p`, Garner recombination yields the
element of `[0, p·q)` congruent to `g1` mod `p` and to `g2` mod `q`. -/
theorem fastCRT_spec (g1 g2 p q qInv : Int)
    (hp : 0 < p) (hq : 0 < q)
    (hg1 : 0 ≤ g1) (hg1p : g1 < p) (hg2 : 0 ≤ g2) (hg2q : g2 < q)
    (hqInv : q * qInv % p = 1) :
    0 ≤ fastCRT g1 p g2 q qInv ∧ fastCRT g1 p g2 q qInv < p * q ∧
      fastCRT g1 p g2 q qInv % p = g1 ∧ fastCRT g1 p g2 q qInv % q = g2 := by
  have hp0 : p ≠ 0 := hp.ne'
  have hp1 : 1 < p := by
    rcases lt_or_le 1 p with h | h
    · exact h
    · exfalso
      interval_cases p
      · simp at hqInv
  rw [fastCRT]
  set t0 := g1 - g2 with ht0
  set t := if t0 < 0 then t0 + p else t0 with ht
  set h := t * qInv % p with hh
  have hh0 : 0 ≤ h := Int.emod_nonneg _ hp0
  have hhp : h < p := Int.emod_lt_of_pos _ hp
  refine ⟨by positivity, ?_, ?_, ?_⟩
  · have : q * h ≤ q * (p - 1) := by
      apply mul_le_mul_of_nonneg_left (by omega) hq.le
    nlinarith
  · have e1 : h ≡ t * qInv [ZMOD p] := Int.emod_emod_of_dvd _ dvd_rfl
    have e3 : q * qInv ≡ 1 [ZMOD p] := by
      show q * qInv % p = 1 % p
      rw [hqInv, Int.emod_eq_of_lt (by norm_num) (by omega)]
    have e5 : t ≡ g1 - g2 [ZMOD p] := by
      rw [ht]
      split
      · show (t0 + p) % p = t0 % p
        simp
      · rfl
    have chain : g2 + q * h ≡ g1 [ZMOD p] := by
      calc g2 + q * h ≡ g2 + q * (t * qInv) [ZMOD p] :=
            Int.ModEq.add_left _ (Int.ModEq.mul_left _ e1)
      _ = g2 + (q * qInv) * t := by ring
      _ ≡ g2 + 1 * t [ZMOD p] :=
            Int.ModEq.add_left _ (Int.ModEq.mul_right _ e3)
      _ = g2 + t := by ring
      _ ≡ g2 + (g1 - g2) [ZMOD p] := Int.ModEq.add_left _ e5
      _ = g1 := by ring
    calc (g2 + q * h) % p = g1 % p := chain
    _ = g1 := Int.emod_eq_of_lt hg1 hg1p
  · calc (g2 + q * h) % q = g2 % q := Int.add_mul_emod_self_left g2 q h
    _ = g2 := Int.emod_eq_of_lt hg2 hg2q

/-! ### Paillier decryption correctness -/

theorem one_add_mul_pow_modEq (p α : Nat) :
    ∀ m, (1 + p * α) ^ m ≡ 1 + p * (m * α) [MOD p ^ 2] := by
  intro m
  induction m with
  | zero => simp; exact Nat.ModEq.refl _
  | succ m ih =>
    have step : (1 + p * (m * α)) * (1 + p * α)
        ≡ 1 + p * ((m + 1) * α) [MOD p ^ 2] := by
      have hexp : (1 + p * (m * α)) * (1 + p * α)
          = 1 + p * ((m + 1) * α) + p ^ 2 * (m * α * α) := by ring
      rw [hexp]
      show _ % _ = _ % _
      exact Nat.add_mul_mod_self_left _ _ _
    calc (1 + p * α) ^ (m + 1) = (1 + p * α) ^ m * (1 + p * α) := pow_succ _ _
    _ ≡ (1 + p * (m * α)) * (1 + p * α) [MOD p ^ 2] := ih.mul_right _
    _ ≡ 1 + p * ((m + 1) * α) [MOD p ^ 2] := step

theorem eq_one_add_mul_mod {P x k : Nat} (hP : 1 < P) (hx : x < P ^ 2)
    (h : x ≡ 1 + P * k [MOD P ^ 2]) : x = 1 + P * (k % P) := by
  have hmd : 1 + P * k = 1 + P * (k % P) + P ^ 2 * (k / P) := by
    conv_lhs => rw [← Nat.mod_add_div k P]
    ring
  have h2 : x ≡ 1 + P * (k % P) [MOD P ^ 2] := by
    calc x ≡ 1 + P * k [MOD P ^ 2] := h
    _ = 1 + P * (k % P) + P ^ 2 * (k / P) := hmd
    _ ≡ 1 + P * (k % P) [MOD P ^ 2] := by
        show _ % _ = _ % _
        exact Nat.add_mul_mod_self_left _ _ _
  have hmlt : k % P ≤ P - 1 := by
    have := Nat.mod_lt k (show 0 < P by omega)
    omega
  have hlt : 1 + P * (k % P) < P ^ 2 := by
    have hw : k % P + 1 ≤ P := by
      have := Nat.mod_lt k (show 0 < P by omega)
      omega
    calc 1 + P * (k % P) < P * (k % P) + P := by linarith
    _ = P * (k % P + 1) := by ring
    _ ≤ P * P := Nat.mul_le_mul_left P hw
    _ = P ^ 2 := (pow_two P).symm
  have h4 : x % P ^ 2 = (1 + P * (k % P)) % P ^ 2 := h2
  rwa [Nat.mod_eq_of_lt hx, Nat.mod_eq_of_lt hlt] at h4

/-- One prime side of the CRT decryption: given `n = P·Q`, a ciphertext
congruent to `g^m · t^n` modulo `P²`, the precomputed 2-adic inverse of `P`
and the `h_P` constant (the inverse modulo `P` of `L_P(g^{P−1} mod P²)`),
the quantity `L_P(c^{P−1} mod P²) · h_P mod P` equals `m mod P`. -/
theorem paillier_crt_side {P Q n g t c m Pinv hsub : Nat}
    (hP : Nat.Prime P) (hn : n = P * Q)
    (hg : Nat.Coprime g P) (ht : Nat.Coprime t P)
    (hc : c ≡ g ^ m * t ^ n [MOD P ^ 2])
    (hinv : P * Pinv % 2 ^ BN_num_bits P = 1)
    (hhsub : (modExp g (P - 1) (P ^ 2) - 1) / P * hsub % P = 1) :
    fastL ((modExp (c % P ^ 2) (P - 1) (P ^ 2) : Nat) : Int) (P : Int)
        (Pinv : Int) * (hsub : Int) % (P : Int) = ((m % P : Nat) : Int) := by
  have hp1 : 1 < P := hP.one_lt
  have hp0 : 0 < P := by omega
  set u := modExp g (P - 1) (P ^ 2) with hu_def
  have hu_eq : u = g ^ (P - 1) % P ^ 2 := modExp_eq _ _ _
  set up := modExp (c % P ^ 2) (P - 1) (P ^ 2) with hup_def
  have hup_eq : up = c ^ (P - 1) % P ^ 2 := by
    rw [hup_def, modExp_eq, ← Nat.pow_mod]
  have hu_cong : u ≡ g ^ (P - 1) [MOD P ^ 2] := by
    rw [hu_eq]; exact Nat.mod_modEq _ _
  have hferm : g ^ (P - 1) ≡ 1 [MOD P] := by
    have := Nat.ModEq.pow_totient hg
    rwa [Nat.totient_prime hP] at this
  have hPdvd : P ∣ P ^ 2 := dvd_pow_self P two_ne_zero
  have hu1P : u ≡ 1 [MOD P] := (hu_cong.of_dvd hPdvd).trans hferm
  have hu_pos : 1 ≤ u := by
    rcases Nat.eq_zero_or_pos u with h0 | h0
    · exfalso
      have hdvd2 : P ^ 2 ∣ g ^ (P - 1) := by
        apply Nat.dvd_of_mod_eq_zero
        omega
      have hdvd : P ∣ g ^ (P - 1) := dvd_trans hPdvd hdvd2
      have hco : Nat.Coprime (g ^ (P - 1)) P := hg.pow_left _
      have h1 : P ∣ 1 := by
        have := Nat.dvd_gcd hdvd dvd_rfl
        rwa [Nat.Coprime.gcd_eq_one hco] at this
      have := Nat.le_of_dvd one_pos h1
      omega
    · exact h0
  obtain ⟨α, hα⟩ : P ∣ u - 1 := (Nat.modEq_iff_dvd' hu_pos).mp hu1P.symm
  have hu_form : u = 1 + P * α := by omega
  have hα_def : (modExp g (P - 1) (P ^ 2) - 1) / P = α := by
    rw [← hu_def, hα]
    exact Nat.mul_div_cancel_left α hp0
  have hu_lt : u < P ^ 2 := by
    rw [hu_eq]; exact Nat.mod_lt _ (by positivity)
  have hα_lt : α < P := by nlinarith
  have htP2 : Nat.Coprime t (P ^ 2) := ht.pow_right _
  have heul : t ^ (P * (P - 1)) ≡ 1 [MOD P ^ 2] := by
    have h := Nat.ModEq.pow_totient htP2
    rwa [Nat.totient_prime_pow hP (by norm_num), pow_one] at h
  have htn : t ^ (n * (P - 1)) ≡ 1 [MOD P ^ 2] := by
    have hsplit : n * (P - 1) = P * (P - 1) * Q := by rw [hn]; ring
    calc t ^ (n * (P - 1)) = (t ^ (P * (P - 1))) ^ Q := by
          rw [← pow_mul, hsplit]
    _ ≡ 1 ^ Q [MOD P ^ 2] := heul.pow Q
    _ = 1 := one_pow Q
  have hup_cong : up ≡ 1 + P * (m * α) [MOD P ^ 2] := by
    have h1 : up ≡ c ^ (P - 1) [MOD P ^ 2] := by
      rw [hup_eq]; exact Nat.mod_modEq _ _
    have h3 : (g ^ m * t ^ n) ^ (P - 1)
        = (g ^ (P - 1)) ^ m * t ^ (n * (P - 1)) := by
      rw [mul_pow, ← pow_mul, ← pow_mul, mul_comm m (P - 1), pow_mul]
    have h4 : (g ^ (P - 1)) ^ m ≡ u ^ m [MOD P ^ 2] := hu_cong.symm.pow m
    have h5 : u ^ m ≡ 1 + P * (m * α) [MOD P ^ 2] := by
      rw [hu_form]; exact one_add_mul_pow_modEq P α m
    calc up ≡ c ^ (P - 1) [MOD P ^ 2] := h1
    _ ≡ (g ^ m * t ^ n) ^ (P - 1) [MOD P ^ 2] := hc.pow _
    _ = (g ^ (P - 1)) ^ m * t ^ (n * (P - 1)) := h3
    _ ≡ u ^ m * 1 [MOD P ^ 2] := h4.mul htn
    _ = u ^ m := mul_one _
    _ ≡ 1 + P * (m * α) [MOD P ^ 2] := h5
  have hup_lt : up < P ^ 2 := by
    rw [hup_eq]; exact Nat.mod_lt _ (by positivity)
  have hup_form : up = 1 + P * (m * α % P) :=
    eq_one_add_mul_mod hp1 hup_lt hup_cong
  have hβ_lt : m * α % P < P := Nat.mod_lt _ hp0
  have hquot : (up - 1) / P = m * α % P := by
    rw [hup_form]
    simp [Nat.mul_div_cancel_left _ hp0]
  have hfl : fastL (up : Int) (P : Int) (Pinv : Int)
      = (((up - 1) / P : Nat) : Int) := by
    apply fastL_spec (by omega) hinv
    · show up % P = 1 % P
      rw [hup_form]
      exact Nat.add_mul_mod_self_left _ _ _
    · rw [hquot]; exact hβ_lt
  rw [hfl, hquot]
  have hcast : ((m * α % P : Nat) : Int) * (hsub : Int) % (P : Int)
      = ((m * α % P * hsub % P : Nat) : Int) := by
    push_cast; ring_nf
  rw [hcast, Nat.cast_inj]
  rw [hα_def] at hhsub
  rw [Nat.mod_mul_mod, mul_assoc, Nat.mul_mod, hhsub, mul_one,
    Nat.mod_mod_of_dvd _ dvd_rfl]

/-- A valid Paillier key pair: the §3 data-model invariants together with
the postconditions the key generator establishes for the precomputed
helpers (`pInv2w`, `qInv2w`, `hSubP`, `hSubQ`, `qInv`).  The `hsubp_eq`
field states that `hSubP` inverts `L_p(g^{p−1} mod p²)` modulo `p` (which
also encodes the generator side condition `g^{p−1} mod p² ≠ 1`). -/
structure IsValidKeyPair (pubK : PaillierPubK) (privK : PaillierPrivK) : Prop where
  p_prime : privK.p.Prime
  q_prime : privK.q.Prime
  p_ne_q : privK.p ≠ privK.q
  n_eq : pubK.n = privK.p * privK.q
  nsq_eq : pubK.nsquared = pubK.n ^ 2
  psq_eq : privK.psquared = privK.p ^ 2
  qsq_eq : privK.qsquared = privK.q ^ 2
  pinv_eq : privK.p * privK.pinvmod2tow % 2 ^ BN_num_bits privK.p = 1
  qinv_eq : privK.q * privK.qinvmod2tow % 2 ^ BN_num_bits privK.q = 1
  g_coprime : Nat.Coprime pubK.g pubK.nsquared
  hsubp_eq :
    (modExp pubK.g (privK.p - 1) privK.psquared - 1) / privK.p
      * privK.hsubp % privK.p = 1
  hsubq_eq :
    (modExp pubK.g (privK.q - 1) privK.qsquared - 1) / privK.q
      * privK.hsubq % privK.q = 1
  qInv_eq : privK.q * privK.qInv % privK.p = 1

/-- `c` is a Paillier ciphertext of `m`: it is congruent modulo `n²` to
`g^m · t^n` for some `t ∈ Z*_n`. -/
def Encrypts (pubK : PaillierPubK) (c m : Nat) : Prop :=
  ∃ t, Nat.Coprime t pubK.n ∧ c ≡ pubK.g ^ m * t ^ pubK.n [MOD pubK.nsquared]

/-- Correctness of the CRT decryption pipeline: on a valid key pair, any
ciphertext of a plaintext `m < n` decrypts to `m`. -/
theorem paillierCRTplaintext_correct {pubK : PaillierPubK}
    {privK : PaillierPrivK} (hv : IsValidKeyPair pubK privK)
    {c m : Nat} (hm : m < pubK.n) (hc : Encrypts pubK c m) :
    paillierCRTplaintext privK c = (m : Int) := by
  obtain ⟨t, ht, hcong⟩ := hc
  obtain ⟨hPp, hPq, hpq, hn, hnsq, hpsq, hqsq, hpinv, hqinv, hgco,
    hhp, hhq, hqI⟩ := hv
  have hp1 : 1 < privK.p := hPp.one_lt
  have hq1 : 1 < privK.q := hPq.one_lt
  rw [paillierCRTplaintext, hpsq, hqsq]
  set p := privK.p with hp_def
  set q := privK.q with hq_def
  have hco_pq : Nat.Coprime p q := (Nat.coprime_primes hPp hPq).mpr hpq
  have hnsq_eq : pubK.nsquared = p ^ 2 * q ^ 2 := by
    rw [hnsq, hn]; ring
  -- coprimality facts
  have hgp : Nat.Coprime pubK.g p := by
    have h2 : p ∣ pubK.nsquared := by
      rw [hnsq_eq]
      exact dvd_mul_of_dvd_left (dvd_pow_self p two_ne_zero) _
    exact Nat.Coprime.coprime_dvd_right h2 hgco
  have hgq : Nat.Coprime pubK.g q := by
    have h2 : q ∣ pubK.nsquared := by
      rw [hnsq_eq]
      exact dvd_mul_of_dvd_right (dvd_pow_self q two_ne_zero) _
    exact Nat.Coprime.coprime_dvd_right h2 hgco
  have htp : Nat.Coprime t p := by
    have h2 : p ∣ pubK.n := by rw [hn]; exact dvd_mul_right _ _
    exact Nat.Coprime.coprime_dvd_right h2 ht
  have htq : Nat.Coprime t q := by
    have h2 : q ∣ pubK.n := by rw [hn]; exact dvd_mul_left _ _
    exact Nat.Coprime.coprime_dvd_right h2 ht
  -- the ciphertext congruence per factor
  have hcp : c ≡ pubK.g ^ m * t ^ pubK.n [MOD p ^ 2] := by
    apply hcong.of_dvd
    rw [hnsq_eq]; exact dvd_mul_right _ _
  have hcq : c ≡ pubK.g ^ m * t ^ pubK.n [MOD q ^ 2] := by
    apply hcong.of_dvd
    rw [hnsq_eq]; exact dvd_mul_left _ _
  -- the two CRT sides
  have hmp := paillier_crt_side hPp hn hgp htp hcp hpinv (by
    rw [← hpsq]; exact hhp)
  have hmq := paillier_crt_side hPq (by rw [hn]; ring) hgq htq hcq hqinv (by
    rw [← hqsq]; exact hhq)
  -- assemble `paillierCRTplaintext`
  rw [hmp, hmq]
  -- Garner recombination of `m % p` and `m % q`
  have hp0 : (0 : Int) < (p : Int) := by exact_mod_cast (show 0 < p by omega)
  have hq0 : (0 : Int) < (q : Int) := by exact_mod_cast (show 0 < q by omega)
  obtain ⟨hge, hlt, hmodp, hmodq⟩ :=
    fastCRT_spec ((m % p : Nat) : Int) ((m % q : Nat) : Int) (p : Int)
      (q : Int) (privK.qInv : Int) hp0 hq0
      (Int.natCast_nonneg _)
      (by exact_mod_cast Nat.mod_lt m (by omega))
      (Int.natCast_nonneg _)
      (by exact_mod_cast Nat.mod_lt m (by omega))
      (by exact_mod_cast hqI)
  set x := fastCRT ((m % p : Nat) : Int) (p : Int) ((m % q : Nat) : Int)
    (q : Int) (privK.qInv : Int) with hx
  -- x and m are congruent modulo p and q, both lie in [0, p q)
  have hxmp : x % (p : Int) = (m : Int) % (p : Int) := by
    exact_mod_cast hmodp
  have hxmq : x % (q : Int) = (m : Int) % (q : Int) := by
    exact_mod_cast hmodq
  have hdp : (p : Int) ∣ ((m : Int) - x) :=
    Int.ModEq.dvd (show x ≡ (m : Int) [ZMOD (p : Int)] from hxmp)
  have hdq : (q : Int) ∣ ((m : Int) - x) :=
    Int.ModEq.dvd (show x ≡ (m : Int) [ZMOD (q : Int)] from hxmq)
  have hcopZ : IsCoprime (p : Int) (q : Int) :=
    Nat.isCoprime_iff_coprime.mpr hco_pq
  have hdpq : ((p : Int) * (q : Int)) ∣ ((m : Int) - x) :=
    hcopZ.mul_dvd hdp hdq
  have hmlt : (m : Int) < (p : Int) * (q : Int) := by
    have h9 : (m : Int) < (pubK.n : Int) := by exact_mod_cast hm
    rw [hn] at h9
    push_cast at h9
    linarith
  have habs : |(m : Int) - x| < (p : Int) * (q : Int) := by
    rw [abs_lt]
    constructor
    · linarith [hlt, Int.natCast_nonneg m]
    · linarith [hmlt, hge]
  have hzero : (m : Int) - x = 0 := Int.eq_zero_of_abs_lt_dvd hdpq habs
  omega

/-! ### Ciphertext-relation lemmas -/

theorem coprime_of_modEq {a b n : Nat} (h : a ≡ b [MOD n])
    (hb : Nat.Coprime b n) : Nat.Coprime a n := by
  have h2 : Nat.gcd n a = Nat.gcd n b := by
    rw [Nat.gcd_rec n a, Nat.gcd_rec n b, h]
  unfold Nat.Coprime
  rw [Nat.gcd_comm, h2, Nat.gcd_comm]
  exact hb

theorem coprime_of_mul_mod_one {a b n : Nat} (h : a * b % n = 1) :
    Nat.Coprime b n := by
  have hd : Nat.gcd b n ∣ 1 := by
    have h1 : Nat.gcd b n ∣ a * b := Dvd.dvd.mul_left (Nat.gcd_dvd_left b n) a
    have h2 : Nat.gcd b n ∣ n := Nat.gcd_dvd_right b n
    have h3 : Nat.gcd b n ∣ a * b % n := (Nat.dvd_mod_iff h2).mpr h1
    rwa [h] at h3
  exact Nat.dvd_one.mp hd

theorem Encrypts.mul {pubK : PaillierPubK} {c1 c2 m1 m2 : Nat}
    (h1 : Encrypts pubK c1 m1) (h2 : Encrypts pubK c2 m2) :
    Encrypts pubK (c1 * c2 % pubK.nsquared) (m1 + m2) := by
  obtain ⟨t1, ht1, hc1⟩ := h1
  obtain ⟨t2, ht2, hc2⟩ := h2
  refine ⟨t1 * t2, Nat.Coprime.mul ht1 ht2, ?_⟩
  calc c1 * c2 % pubK.nsquared ≡ c1 * c2 [MOD pubK.nsquared] :=
        Nat.mod_modEq _ _
  _ ≡ (pubK.g ^ m1 * t1 ^ pubK.n) * (pubK.g ^ m2 * t2 ^ pubK.n)
      [MOD pubK.nsquared] := hc1.mul hc2
  _ = pubK.g ^ (m1 + m2) * (t1 * t2) ^ pubK.n := by
      rw [pow_add, mul_pow]; ring

theorem Encrypts.rerand {pubK : PaillierPubK} {c m r : Nat}
    (hr : Nat.Coprime r pubK.n) (h : Encrypts pubK c m) :
    Encrypts pubK (c * modExp r pubK.n pubK.nsquared % pubK.nsquared) m := by
  obtain ⟨t, ht, hc⟩ := h
  refine ⟨t * r, Nat.Coprime.mul ht hr, ?_⟩
  calc c * modExp r pubK.n pubK.nsquared % pubK.nsquared
      ≡ c * modExp r pubK.n pubK.nsquared [MOD pubK.nsquared] :=
        Nat.mod_modEq _ _
  _ = c * (r ^ pubK.n % pubK.nsquared) := by rw [modExp_eq]
  _ ≡ c * r ^ pubK.n [MOD pubK.nsquared] :=
        Nat.ModEq.mul_left c (Nat.mod_modEq _ _)
  _ ≡ (pubK.g ^ m * t ^ pubK.n) * r ^ pubK.n [MOD pubK.nsquared] :=
        hc.mul_right _
  _ = pubK.g ^ m * (t * r) ^ pubK.n := by rw [mul_pow]; ring

theorem Encrypts.mod_n {pubK : PaillierPubK}
    (hg : Nat.Coprime pubK.g pubK.n) {c m : Nat}
    (h : Encrypts pubK c m) : Encrypts pubK c (m % pubK.n) := by
  obtain ⟨t, ht, hc⟩ := h
  refine ⟨pubK.g ^ (m / pubK.n) * t,
    Nat.Coprime.mul (hg.pow_left _) ht, ?_⟩
  have key : pubK.g ^ m
      = pubK.g ^ (m % pubK.n) * (pubK.g ^ (m / pubK.n)) ^ pubK.n := by
    rw [← pow_mul, ← pow_add, Nat.mod_add_div']
  calc c ≡ pubK.g ^ m * t ^ pubK.n [MOD pubK.nsquared] := hc
  _ = pubK.g ^ (m % pubK.n) * (pubK.g ^ (m / pubK.n) * t) ^ pubK.n := by
      rw [mul_pow, ← mul_assoc, ← key]

theorem Encrypts.coprime {pubK : PaillierPubK}
    (hns : pubK.nsquared = pubK.n ^ 2)
    (hg : Nat.Coprime pubK.g pubK.nsquared) {c m : Nat}
    (h : Encrypts pubK c m) : Nat.Coprime c pubK.nsquared := by
  obtain ⟨t, ht, hc⟩ := h
  have h1 : Nat.Coprime (pubK.g ^ m * t ^ pubK.n) pubK.nsquared := by
    apply Nat.Coprime.mul
    · exact hg.pow_left _
    · have h2 : Nat.Coprime t pubK.nsquared := by
        rw [hns]; exact ht.pow_right _
      exact h2.pow_left _
  exact coprime_of_modEq hc h1

theorem Encrypts.inv {pubK : PaillierPubK}
    (hns : pubK.nsquared = pubK.n ^ 2) (hn1 : 1 < pubK.n)
    (hg : Nat.Coprime pubK.g pubK.nsquared) {c m v : Nat}
    (hm : m ≤ pubK.n) (h : Encrypts pubK c m)
    (hv : BN_mod_inverse c pubK.nsquared = some v) :
    Encrypts pubK v (pubK.n - m) := by
  have hn2 : 1 < pubK.nsquared := by rw [hns]; nlinarith
  obtain ⟨t, ht, hc⟩ := h
  obtain ⟨hv1, hvlt⟩ := BN_mod_inverse_spec hv
  have hcco : Nat.Coprime c pubK.nsquared := Encrypts.coprime hns hg ⟨t, ht, hc⟩
  have hgt : Nat.Coprime (pubK.g * t) pubK.nsquared := by
    apply Nat.Coprime.mul hg
    rw [hns]; exact ht.pow_right _
  obtain ⟨w, hw⟩ := BN_mod_inverse_exists hn2 hgt
  obtain ⟨hw1, hwlt⟩ := BN_mod_inverse_spec hw
  have hwn : Nat.Coprime w pubK.n := by
    have h2 : Nat.Coprime w pubK.nsquared := coprime_of_mul_mod_one hw1
    apply Nat.Coprime.coprime_dvd_right _ h2
    rw [hns]; exact dvd_pow_self _ two_ne_zero
  refine ⟨w, hwn, ?_⟩
  -- cancel c on both sides of the congruence
  have hvc : v * c ≡ 1 [MOD pubK.nsquared] := by
    calc v * c ≡ (c * v) % pubK.nsquared [MOD pubK.nsquared] := by
          rw [mul_comm]; exact (Nat.mod_modEq _ _).symm
    _ = 1 := hv1
  have hgw : (pubK.g * t) * w ≡ 1 [MOD pubK.nsquared] := by
    calc (pubK.g * t) * w ≡ ((pubK.g * t) * w) % pubK.nsquared
        [MOD pubK.nsquared] := (Nat.mod_modEq _ _).symm
    _ = 1 := hw1
  have hrc : (pubK.g ^ (pubK.n - m) * w ^ pubK.n) * c ≡ 1
      [MOD pubK.nsquared] := by
    calc (pubK.g ^ (pubK.n - m) * w ^ pubK.n) * c
        ≡ (pubK.g ^ (pubK.n - m) * w ^ pubK.n)
          * (pubK.g ^ m * t ^ pubK.n) [MOD pubK.nsquared] :=
          Nat.ModEq.mul_left _ hc
    _ = pubK.g ^ (pubK.n - m + m) * t ^ pubK.n * w ^ pubK.n := by
        rw [pow_add]; ring
    _ = ((pubK.g * t) * w) ^ pubK.n := by
        rw [Nat.sub_add_cancel hm, mul_pow, mul_pow]
    _ ≡ 1 ^ pubK.n [MOD pubK.nsquared] := hgw.pow _
    _ = 1 := one_pow _
  have hcan : v * c ≡ (pubK.g ^ (pubK.n - m) * w ^ pubK.n) * c
      [MOD pubK.nsquared] := hvc.trans hrc.symm
  exact Nat.ModEq.cancel_right_of_coprime hcco.symm hcan

/-- The ciphertext relation established by `paillierEncrypt`. -/
theorem Encrypts_of_paillierEncrypt {pubK : PaillierPubK} {m : Nat}
    {rs : List Nat} {c : Nat} (hrs : ∀ x ∈ rs, x < pubK.n)
    (h : paillierEncrypt pubK m rs = some c) : Encrypts pubK c m := by
  rw [paillierEncrypt] at h
  rcases hsamp : sampleZnStar pubK.n rs with _ | r
  · rw [hsamp] at h; exact absurd h (by simp)
  · rw [hsamp] at h
    obtain rfl : modExp pubK.g m pubK.nsquared
        * modExp r pubK.n pubK.nsquared % pubK.nsquared = c := by
      injection h
    obtain ⟨hrn, hrco⟩ := sampleZnStar_coprime hsamp hrs
    refine ⟨r, hrco, ?_⟩
    calc modExp pubK.g m pubK.nsquared * modExp r pubK.n pubK.nsquared
        % pubK.nsquared
        ≡ modExp pubK.g m pubK.nsquared * modExp r pubK.n pubK.nsquared
          [MOD pubK.nsquared] := Nat.mod_modEq _ _
    _ = pubK.g ^ m % pubK.nsquared * (r ^ pubK.n % pubK.nsquared) := by
        rw [modExp_eq, modExp_eq]
    _ ≡ pubK.g ^ m * r ^ pubK.n [MOD pubK.nsquared] := by
        show pubK.g ^ m % pubK.nsquared * (r ^ pubK.n % pubK.nsquared)
            % pubK.nsquared = pubK.g ^ m * r ^ pubK.n % pubK.nsquared
        rw [← Nat.mul_mod]

/-! ### Claim theorems -/

/-- C6: for every `u ≥ 1` and `x` with `u ≡ 1 (mod x)` such that the
quotient `(u − 1)/x` is less than `x`, the fast-L routine computes
`((u − 1)/x) mod x` without division: it equals masking `u − 1` to
`w = bitlen(x)` bits, multiplying by `x⁻¹ mod 2^w`, and masking to `w`
bits again. -/
theorem fastL_computes_L_without_division (u x xinv : Nat) (hu : 1 ≤ u)
    (hmod : u ≡ 1 [MOD x]) (hq : (u - 1) / x < x)
    (hinv : x * xinv % 2 ^ BN_num_bits x = 1) :
    fastL (u : Int) (x : Int) (xinv : Int) = (((u - 1) / x % x : Nat) : Int) := by
  rw [Nat.mod_eq_of_lt hq]
  exact fastL_spec hu hinv hmod hq

theorem fastL_computes_L_without_division_witness :
    (16 : Nat) ≡ 1 [MOD 5] ∧ (16 - 1) / 5 < 5 ∧
      fastL (16 : Int) (5 : Int) (5 : Int) = (((16 - 1) / 5 % 5 : Nat) : Int) :=
  ⟨by decide, by decide,
    fastL_computes_L_without_division 16 5 5 (by decide) (by decide)
      (by decide) (by decide)⟩

/-- C7: for residues `g₁ ∈ [0, p)` and `g₂ ∈ [0, q)` with
`qInv = (q mod p)⁻¹ mod p`, the Garner-form CRT recombination returns a
value in `[0, p·q)` congruent to `g₁` mod `p` and to `g₂` mod `q`. -/
theorem fastCRT_recombines (g1 g2 p q qInv : Int)
    (hp : 0 < p) (hq : 0 < q) (hg1 : 0 ≤ g1) (hg1p : g1 < p)
    (hg2 : 0 ≤ g2) (hg2q : g2 < q) (hqInv : q * qInv % p = 1) :
    0 ≤ fastCRT g1 p g2 q qInv ∧ fastCRT g1 p g2 q qInv < p * q ∧
      fastCRT g1 p g2 q qInv ≡ g1 [ZMOD p] ∧
      fastCRT g1 p g2 q qInv ≡ g2 [ZMOD q] := by
  obtain ⟨h0, h1, h2, h3⟩ :=
    fastCRT_spec g1 g2 p q qInv hp hq hg1 hg1p hg2 hg2q hqInv
  refine ⟨h0, h1, ?_, ?_⟩
  · show _ % _ = _ % _
    rw [h2, Int.emod_eq_of_lt hg1 hg1p]
  · show _ % _ = _ % _
    rw [h3, Int.emod_eq_of_lt hg2 hg2q]

theorem fastCRT_recombines_witness :
    ((7 : Int) * 3 % 5 = 1) ∧
      (0 ≤ fastCRT 3 5 4 7 3 ∧ fastCRT 3 5 4 7 3 < 5 * 7 ∧
        fastCRT 3 5 4 7 3 ≡ 3 [ZMOD 5] ∧ fastCRT 3 5 4 7 3 ≡ 4 [ZMOD 7]) :=
  ⟨by decide,
    fastCRT_recombines 3 4 5 7 3 (by decide) (by decide) (by decide)
      (by decide) (by decide) (by decide) (by decide)⟩

/-- The §4.2 membership predicate exactly as the spec words it:
`InZStar(a, m)` is `true` iff `0 ≤ a < m` and `gcd(a, m) = 1`. -/
def specInZStar (a m : Nat) : Prop := a < m ∧ Nat.gcd a m = 1

instance (a m : Nat) : Decidable (specInZStar a m) :=
  inferInstanceAs (Decidable (a < m ∧ Nat.gcd a m = 1))

/-- C4: the spec says the domain predicate returns `false` for every
`a ≥ m`; the source's `IsInZnstar` instead leaves its early-initialized
`true` flag in place when `a ≥ n` and returns `true` (evaluated here at
`a = 7`, `m = 5`), while the sibling `IsInZnSquaredstar` agrees with the
spec at the same point. -/
theorem IsInZnstar_violates_spec_at_7_5 :
    IsInZnstar 7 5 = true ∧ ¬ specInZStar 7 5 ∧
      IsInZnSquaredstar 7 5 = false := by decide

/-- C5: the source of `Compare` jumps to the exit label without storing an
error code when both private keys are null, so the stale last-error value
of the context (`ENCOUNTER_OK` here, e.g. right after a successful call) is
returned instead of `ENCOUNTER_ERR_PARAM`; the out-parameter is left
unchanged. -/
theorem cmp_both_null_returns_stale_rc :
    encounter_crypto_openssl_cmp ENCOUNTER_OK ⟨1, 0⟩ ⟨1, 0⟩ none none 7
        = (ENCOUNTER_OK, 7) ∧
      ENCOUNTER_OK ≠ ENCOUNTER_ERR_PARAM := by decide

/-- C9: whenever the CRT pipeline yields the plaintext `2^64 − 1`
(`ULLONG_MAX`), `Decrypt` reports `OverflowError` even though that value
fits in an unsigned 64-bit integer, because the `strtoull`-based projection
fails exactly when the parsed value equals `ULLONG_MAX`. -/
theorem decrypt_ullong_max_overflows (privK : PaillierPrivK) (c : Nat)
    (h : paillierCRTplaintext privK c = ((ULLONG_MAX : Nat) : Int)) :
    (encounter_crypto_openssl_decrypt privK c).1 = ENCOUNTER_ERR_OVERFLOW := by
  rw [encounter_crypto_openssl_decrypt, h]
  have h1 : strtoull_dec ((ULLONG_MAX : Nat) : Int) = ULLONG_MAX := by
    rw [strtoull_dec, if_neg (by omega), Int.toNat_natCast, min_self]
  rw [h1, if_pos rfl]

theorem decrypt_ullong_max_overflows_witness :
    paillierCRTplaintext ⟨2 ^ 63, 2, 1, 4, 0, 1, 0, 1, 1⟩ 2
        = ((ULLONG_MAX : Nat) : Int) ∧
      (encounter_crypto_openssl_decrypt ⟨2 ^ 63, 2, 1, 4, 0, 1, 0, 1, 1⟩ 2).1
        = ENCOUNTER_ERR_OVERFLOW :=
  ⟨by decide,
    decrypt_ullong_max_overflows ⟨2 ^ 63, 2, 1, 4, 0, 1, 0, 1, 1⟩ 2 (by decide)⟩

/-- C10: every mutating operation among `Inc`, `Dec`, `Mul`, `MulRand`,
`Add` and `Sub` writes the counter's last-modified timestamp on the common
exit path after the error label, so the timestamp is updated on failure as
well as on success (the last conjunct exhibits an error run: `Inc` with an
exhausted random stream fails with a crypto error, yet by the first
conjunct the timestamp is still stamped). -/
theorem mutators_stamp_lastUpdated :
    ∀ (counter counterB : ec_count_t) (pubK : PaillierPubK) (a ρ : Nat)
      (randOk : Bool) (rs : List Nat) (now : Nat),
      (encounter_crypto_openssl_inc counter pubK a rs now).2.lastUpdated = now
      ∧ (encounter_crypto_openssl_dec counter pubK a rs now).2.lastUpdated = now
      ∧ (encounter_crypto_openssl_mul counter pubK a rs now).2.lastUpdated = now
      ∧ (encounter_crypto_openssl_mul_rand counter pubK randOk ρ rs
          now).2.lastUpdated = now
      ∧ (encounter_crypto_openssl_add counter counterB pubK rs
          now).2.lastUpdated = now
      ∧ (encounter_crypto_openssl_sub counter counterB pubK rs
          now).2.lastUpdated = now
      ∧ (encounter_crypto_openssl_inc counter pubK a [] now).1
          = ENCOUNTER_ERR_CRYPTO := by
  intro counter counterB pubK a ρ randOk rs now
  refine ⟨rfl, rfl, rfl, rfl, rfl, rfl, rfl⟩

/-- C1: on a valid key pair, decrypting the counter produced by encrypting
a plaintext `m` (with `m` in the plaintext space and strictly below the
64-bit bound `ULLONG_MAX`) returns `m`:  `Dec(Enc(m)) = m`, where the
encryption uses a fresh `r ∈ Z*_n` drawn by the rejection-sampling loop
and the decryption is the CRT-accelerated path. -/
theorem dec_of_enc_roundtrip (pubK : PaillierPubK) (privK : PaillierPrivK)
    (hv : IsValidKeyPair pubK privK) (m : Nat) (rs : List Nat) (c : Nat)
    (hmn : m < pubK.n) (hm64 : m < ULLONG_MAX)
    (hrs : ∀ x ∈ rs, x < pubK.n)
    (henc : paillierEncrypt pubK m rs = some c) :
    encounter_crypto_openssl_decrypt privK c = (ENCOUNTER_OK, m) := by
  have hEnc : Encrypts pubK c m := Encrypts_of_paillierEncrypt hrs henc
  have hplain := paillierCRTplaintext_correct hv hmn hEnc
  rw [encounter_crypto_openssl_decrypt, hplain]
  have h1 : strtoull_dec ((m : Nat) : Int) = m := by
    rw [strtoull_dec, if_neg (by omega), Int.toNat_natCast]
    have : ULLONG_MAX = 2 ^ 64 - 1 := rfl
    omega
  rw [h1, if_neg (by
    have : ULLONG_MAX = 2 ^ 64 - 1 := rfl
    omega)]

theorem dec_of_enc_roundtrip_witness :
    (12 < 35 ∧ 12 < ULLONG_MAX) ∧
      encounter_crypto_openssl_decrypt ⟨5, 7, 25, 49, 5, 7, 2, 4, 3⟩
          (modExp 2 12 1225 * modExp 2 35 1225 % 1225)
        = (ENCOUNTER_OK, 12) :=
  ⟨⟨by decide, by decide⟩,
    dec_of_enc_roundtrip ⟨35, 2, 1225⟩ ⟨5, 7, 25, 49, 5, 7, 2, 4, 3⟩
      ⟨by decide, by decide, by decide, by decide, by decide, by decide,
        by decide, by decide, by decide, by decide, by decide, by decide,
        by decide⟩
      12 [2] (modExp 2 12 1225 * modExp 2 35 1225 % 1225)
      (by decide) (by decide) (by decide) (by decide)⟩

/-- C8 counterexample: with the C value `ENCOUNTER_OK = 0`, the guard
`!BN_rand(...) != ENCOUNTER_OK` takes the error branch precisely when
`BN_rand` reports failure, so no run exists in which the random-bit
generation fails yet `MulRand` (or the blinding branch of
`PrivateCompare`) proceeds and returns success. -/
theorem bnRand_guard_no_silent_success :
    (¬ ∃ (pubK : PaillierPubK) (counter : ec_count_t) (ρ now : Nat)
        (rs : List Nat),
        (encounter_crypto_openssl_mul_rand counter pubK false ρ rs now).1
          = ENCOUNTER_OK) ∧
    (¬ ∃ (pubK : PaillierPubK) (privK : PaillierPrivK) (a b : ec_count_t)
        (rs_dup : List Nat) (ρ : Nat) (rs_blind rs_sub : List Nat)
        (now : Nat),
        (encounter_crypto_openssl_private_cmp2 pubK privK a b rs_dup false ρ
          rs_blind rs_sub now).1 = ENCOUNTER_OK) := by
  constructor
  · rintro ⟨pubK, counter, ρ, now, rs, h⟩
    have hmul : paillierMul counter.c pubK 0 true false ρ rs
        = (ENCOUNTER_ERR_CRYPTO, counter.c) := rfl
    rw [encounter_crypto_openssl_mul_rand, hmul] at h
    simp at h
  · rintro ⟨pubK, privK, a, b, rs_dup, ρ, rs_blind, rs_sub, now, h⟩
    rw [encounter_crypto_openssl_private_cmp2] at h
    rcases hdup : encounter_crypto_openssl_dup pubK a rs_dup now
      with ⟨rc, _ | d⟩
    · rw [hdup] at h
      simp at h
    · rw [hdup] at h
      have hguard : bnRandGuardFails false = true := rfl
      simp only [hguard, if_true] at h
      simp at h

/-- C8 amended: the test `!BN_rand(...) != ENCOUNTER_OK` is stylistically a
comparison of a negated boolean status against the error enumeration, but
since `ENCOUNTER_OK = 0` it is equivalent to the correct test
`!BN_rand(...)`: whenever the random-bit generation reports failure,
`MulRand` and the blinding branch of `PrivateCompare` take the error
branch and return `CryptoError`. -/
theorem bnRand_guard_detects_failure :
    ∀ (pubK : PaillierPubK) (privK : PaillierPrivK) (counter a b : ec_count_t)
      (ρ now : Nat) (rs rs_dup rs_blind rs_sub : List Nat),
      (encounter_crypto_openssl_mul_rand counter pubK false ρ rs now).1
          = ENCOUNTER_ERR_CRYPTO
        ∧ (encounter_crypto_openssl_private_cmp2 pubK privK a b rs_dup false ρ
            rs_blind rs_sub now).1 = ENCOUNTER_ERR_CRYPTO := by
  intro pubK privK counter a b ρ now rs rs_dup rs_blind rs_sub
  constructor
  · rfl
  · rw [encounter_crypto_openssl_private_cmp2]
    rcases hdup : encounter_crypto_openssl_dup pubK a rs_dup now
      with ⟨rc, _ | d⟩
    · rfl
    · have hguard : bnRandGuardFails false = true := rfl
      simp only [hguard, if_true]

theorem paillierAddSub_add_eq {pubK : PaillierPubK} (ca cb : Nat)
    {rs : List Nat} {r : Nat} (hs : sampleZnStar pubK.n rs = some r) :
    paillierAddSub ca cb pubK false rs
      = (ENCOUNTER_OK,
          ca * cb % pubK.nsquared * modExp r pubK.n pubK.nsquared
            % pubK.nsquared) := by
  rw [paillierAddSub]
  simp only [Bool.false_eq_true, if_false, hs]

/-- C2: on a valid key pair, `Add` applied to counters encrypting `m` and
`m'` (each a ciphertext congruent to `g^m·t^n` mod `n²` for some
`t ∈ Z*_n`) succeeds and yields a counter whose CRT decryption is
`(m + m') mod n`; when that value is below the 64-bit bound, the full
`Decrypt` returns it. -/
theorem add_then_decrypt (pubK : PaillierPubK) (privK : PaillierPrivK)
    (hv : IsValidKeyPair pubK privK) (a b : ec_count_t) (ma mb : Nat)
    (rs : List Nat) (now : Nat) (r : Nat)
    (ha : Encrypts pubK a.c ma) (hb : Encrypts pubK b.c mb)
    (hrs : ∀ x ∈ rs, x < pubK.n) (hs : sampleZnStar pubK.n rs = some r) :
    (encounter_crypto_openssl_add a b pubK rs now).1 = ENCOUNTER_OK ∧
      paillierCRTplaintext privK
          (encounter_crypto_openssl_add a b pubK rs now).2.c
        = (((ma + mb) % pubK.n : Nat) : Int) ∧
      ((ma + mb) % pubK.n < ULLONG_MAX →
        encounter_crypto_openssl_decrypt privK
            (encounter_crypto_openssl_add a b pubK rs now).2.c
          = (ENCOUNTER_OK, (ma + mb) % pubK.n)) := by
  obtain ⟨hrn, hrco⟩ := sampleZnStar_coprime hs hrs
  have hred : paillierAddSub a.c b.c pubK false rs
      = (ENCOUNTER_OK,
          a.c * b.c % pubK.nsquared * modExp r pubK.n pubK.nsquared
            % pubK.nsquared) := paillierAddSub_add_eq a.c b.c hs
  have hn1 : 1 < pubK.n := by
    have h1 := hv.p_prime.one_lt
    have h2 := hv.q_prime.one_lt
    rw [hv.n_eq]; nlinarith
  have hgn : Nat.Coprime pubK.g pubK.n := by
    apply Nat.Coprime.coprime_dvd_right _ hv.g_coprime
    rw [hv.nsq_eq]; exact dvd_pow_self _ two_ne_zero
  have hEnc : Encrypts pubK
      (a.c * b.c % pubK.nsquared * modExp r pubK.n pubK.nsquared
        % pubK.nsquared) ((ma + mb) % pubK.n) :=
    Encrypts.mod_n hgn (Encrypts.rerand hrco (Encrypts.mul ha hb))
  have hmod_lt : (ma + mb) % pubK.n < pubK.n := Nat.mod_lt _ (by omega)
  have hplain := paillierCRTplaintext_correct hv hmod_lt hEnc
  have hcres : (encounter_crypto_openssl_add a b pubK rs now).2.c
      = a.c * b.c % pubK.nsquared * modExp r pubK.n pubK.nsquared
        % pubK.nsquared := by
    rw [encounter_crypto_openssl_add, hred]
  have hok : (encounter_crypto_openssl_add a b pubK rs now).1
      = ENCOUNTER_OK := by
    rw [encounter_crypto_openssl_add, hred]
    rfl
  refine ⟨hok, ?_, ?_⟩
  · rw [hcres]; exact hplain
  · intro hlt
    rw [hcres, encounter_crypto_openssl_decrypt, hplain]
    have h1 : strtoull_dec (((ma + mb) % pubK.n : Nat) : Int)
        = (ma + mb) % pubK.n := by
      rw [strtoull_dec, if_neg (by omega), Int.toNat_natCast]
      have hall : ULLONG_MAX = 2 ^ 64 - 1 := rfl
      omega
    rw [h1, if_neg (by
      have hall : ULLONG_MAX = 2 ^ 64 - 1 := rfl
      omega)]

theorem add_then_decrypt_witness :
    Encrypts ⟨35, 2, 1225⟩ 8 3 ∧ Encrypts ⟨35, 2, 1225⟩ 16 4 ∧
      ((encounter_crypto_openssl_add ⟨8, 0⟩ ⟨16, 0⟩ ⟨35, 2, 1225⟩ [1] 0).1
          = ENCOUNTER_OK ∧
        paillierCRTplaintext ⟨5, 7, 25, 49, 5, 7, 2, 4, 3⟩
            (encounter_crypto_openssl_add ⟨8, 0⟩ ⟨16, 0⟩ ⟨35, 2, 1225⟩
              [1] 0).2.c
          = (((3 + 4) % 35 : Nat) : Int) ∧
        ((3 + 4) % 35 < ULLONG_MAX →
          encounter_crypto_openssl_decrypt ⟨5, 7, 25, 49, 5, 7, 2, 4, 3⟩
              (encounter_crypto_openssl_add ⟨8, 0⟩ ⟨16, 0⟩ ⟨35, 2, 1225⟩
                [1] 0).2.c
            = (ENCOUNTER_OK, (3 + 4) % 35))) :=
  ⟨⟨1, by decide, by decide⟩, ⟨1, by decide, by decide⟩,
    add_then_decrypt ⟨35, 2, 1225⟩ ⟨5, 7, 25, 49, 5, 7, 2, 4, 3⟩
      ⟨by decide, by decide, by decide, by decide, by decide, by decide,
        by decide, by decide, by decide, by decide, by decide, by decide,
        by decide⟩
      ⟨8, 0⟩ ⟨16, 0⟩ 3 4 [1] 0 1
      ⟨1, by decide, by decide⟩ ⟨1, by decide, by decide⟩
      (by decide) (by decide)⟩

theorem paillierAddSub_sub_eq {pubK : PaillierPubK} (ca cb : Nat) {v : Nat}
    (hvinv : BN_mod_inverse cb pubK.nsquared = some v)
    {rs : List Nat} {r : Nat} (hs : sampleZnStar pubK.n rs = some r) :
    paillierAddSub ca cb pubK true rs
      = (ENCOUNTER_OK,
          ca * v % pubK.nsquared * modExp r pubK.n pubK.nsquared
            % pubK.nsquared) := by
  rw [paillierAddSub]
  simp [hvinv, hs]

theorem private_cmp2_run_eq (pubK : PaillierPubK) (privK : PaillierPrivK)
    (a b : ec_count_t) (ρ : Nat) (rs_dup rs_blind rs_sub : List Nat)
    (now : Nat) (r1 r2 r3 v : Nat)
    (hs1 : sampleZnStar pubK.n rs_dup = some r1)
    (hs2 : sampleZnStar pubK.n rs_blind = some r2)
    (hs3 : sampleZnStar pubK.n rs_sub = some r3)
    (hvinv : BN_mod_inverse b.c pubK.nsquared = some v) :
    encounter_crypto_openssl_private_cmp2 pubK privK a b rs_dup true ρ
        rs_blind rs_sub now
      = (ENCOUNTER_OK, some (BN_cmp
          (paillierCRTplaintext privK
            (a.c * modExp r1 pubK.n pubK.nsquared % pubK.nsquared
              * modExp pubK.g ρ pubK.nsquared % pubK.nsquared
              * modExp r2 pubK.n pubK.nsquared % pubK.nsquared
              * v % pubK.nsquared
              * modExp r3 pubK.n pubK.nsquared % pubK.nsquared))
          (ρ : Int))) := by
  have hdup : encounter_crypto_openssl_dup pubK a rs_dup now
      = (ENCOUNTER_OK, some
          ⟨a.c * modExp r1 pubK.n pubK.nsquared % pubK.nsquared, now⟩) := by
    rw [encounter_crypto_openssl_dup, encounter_crypto_openssl_touch, hs1]
  have hsub : encounter_crypto_openssl_sub
      ⟨a.c * modExp r1 pubK.n pubK.nsquared % pubK.nsquared
        * modExp pubK.g ρ pubK.nsquared % pubK.nsquared
        * modExp r2 pubK.n pubK.nsquared % pubK.nsquared, now⟩
      b pubK rs_sub now
      = (ENCOUNTER_OK,
          ⟨a.c * modExp r1 pubK.n pubK.nsquared % pubK.nsquared
            * modExp pubK.g ρ pubK.nsquared % pubK.nsquared
            * modExp r2 pubK.n pubK.nsquared % pubK.nsquared
            * v % pubK.nsquared
            * modExp r3 pubK.n pubK.nsquared % pubK.nsquared, now⟩) := by
    rw [encounter_crypto_openssl_sub, paillierAddSub_sub_eq _ _ hvinv hs3]
    rfl
  rw [encounter_crypto_openssl_private_cmp2, hdup]
  have hguard : bnRandGuardFails true = false := rfl
  simp only [hguard, Bool.false_eq_true, if_false, hs2, hsub]
  rfl

/-- C3 amended: on a valid key pair, for counters `a`, `b` encrypting
`ma`, `mb` with `|ma − mb| ≤ 2^{S+1}` and `2^{S+1} + 2^{S+2} ≤ n` (so that
the blinded difference `ma − mb + ρ` never wraps modulo `n`; the claim's
original bound `|ma − mb| < n / 2^{S+3}` admits differences that exceed
every possible randomizer `ρ < 2^{S+2}` once `n > 2^{2S+4}` and then the
sign is wrong — see the counterexample), `PrivateCompare` with a
randomizer `ρ ∈ [2^{S+1}, 2^{S+2})` returns `sign(ma − mb)`. -/
theorem private_cmp2_returns_sign (S : Nat) (pubK : PaillierPubK)
    (privK : PaillierPrivK) (hv : IsValidKeyPair pubK privK)
    (a b : ec_count_t) (ma mb : Nat)
    (ha : Encrypts pubK a.c ma) (hb : Encrypts pubK b.c mb)
    (hman : ma < pubK.n) (hmbn : mb < pubK.n)
    (ρ : Nat) (hρlo : 2 ^ (S + 1) ≤ ρ) (hρhi : ρ < 2 ^ (S + 2))
    (hdab : (ma : Int) - mb ≤ 2 ^ (S + 1))
    (hdba : (mb : Int) - ma ≤ 2 ^ (S + 1))
    (hwrap : 2 ^ (S + 1) + 2 ^ (S + 2) ≤ pubK.n)
    (rs_dup rs_blind rs_sub : List Nat) (now : Nat) (r1 r2 r3 : Nat)
    (hb1 : ∀ x ∈ rs_dup, x < pubK.n) (hb2 : ∀ x ∈ rs_blind, x < pubK.n)
    (hb3 : ∀ x ∈ rs_sub, x < pubK.n)
    (hs1 : sampleZnStar pubK.n rs_dup = some r1)
    (hs2 : sampleZnStar pubK.n rs_blind = some r2)
    (hs3 : sampleZnStar pubK.n rs_sub = some r3) :
    encounter_crypto_openssl_private_cmp2 pubK privK a b rs_dup true ρ
        rs_blind rs_sub now
      = (ENCOUNTER_OK, some (Int.sign ((ma : Int) - mb))) := by
  obtain ⟨hr1n, hr1⟩ := sampleZnStar_coprime hs1 hb1
  obtain ⟨hr2n, hr2⟩ := sampleZnStar_coprime hs2 hb2
  obtain ⟨hr3n, hr3⟩ := sampleZnStar_coprime hs3 hb3
  have hn1 : 1 < pubK.n := by
    have h1 := hv.p_prime.one_lt
    have h2 := hv.q_prime.one_lt
    rw [hv.n_eq]; nlinarith
  have hn2 : 1 < pubK.nsquared := by rw [hv.nsq_eq]; nlinarith
  have hgn : Nat.Coprime pubK.g pubK.n := by
    apply Nat.Coprime.coprime_dvd_right _ hv.g_coprime
    rw [hv.nsq_eq]; exact dvd_pow_self _ two_ne_zero
  have hbco : Nat.Coprime b.c pubK.nsquared :=
    Encrypts.coprime hv.nsq_eq hv.g_coprime hb
  obtain ⟨v, hvinv⟩ := BN_mod_inverse_exists hn2 hbco
  -- the ciphertext relation along the run
  have eg : Encrypts pubK (modExp pubK.g ρ pubK.nsquared) ρ := by
    refine ⟨1, Nat.coprime_one_left _, ?_⟩
    rw [modExp_eq, one_pow, mul_one]
    exact Nat.mod_modEq _ _
  have e3b := Encrypts.rerand hr3
    (Encrypts.mul
      (Encrypts.rerand hr2 (Encrypts.mul (Encrypts.rerand hr1 ha) eg))
      (Encrypts.inv hv.nsq_eq hn1 hv.g_coprime hmbn.le hb hvinv))
  have e3 := Encrypts.mod_n hgn e3b
  have hmlt : (ma + ρ + (pubK.n - mb)) % pubK.n < pubK.n :=
    Nat.mod_lt _ (by omega)
  have hplain := paillierCRTplaintext_correct hv hmlt e3
  -- the wrapped value is the true blinded difference
  have hble : mb ≤ ma + ρ := by
    have h2 : ((2 : Int) ^ (S + 1) : Int) ≤ (ρ : Int) := by exact_mod_cast hρlo
    have h3 : (mb : Int) ≤ (ma : Int) + ρ := by linarith
    exact_mod_cast h3
  have hnowrap : ma + ρ - mb < pubK.n := by
    have h2 : (ρ : Int) < (2 : Int) ^ (S + 2) := by exact_mod_cast hρhi
    have h4 : ((2 : Int) ^ (S + 1)) + ((2 : Int) ^ (S + 2)) ≤ (pubK.n : Int) := by
      exact_mod_cast hwrap
    have h3 : (ma : Int) + ρ - mb < (pubK.n : Int) := by linarith
    have h5 : ((ma + ρ - mb : Nat) : Int) = (ma : Int) + ρ - mb := by
      push_cast [hble]
      omega
    omega
  have hval : (ma + ρ + (pubK.n - mb)) % pubK.n = ma + ρ - mb := by
    have hsplit : ma + ρ + (pubK.n - mb) = (ma + ρ - mb) + pubK.n := by omega
    rw [hsplit, Nat.add_mod_right, Nat.mod_eq_of_lt hnowrap]
  rw [private_cmp2_run_eq pubK privK a b ρ rs_dup rs_blind rs_sub now
    r1 r2 r3 v hs1 hs2 hs3 hvinv, hplain, hval]
  -- compare the blinded difference against the randomizer
  rcases lt_trichotomy ma mb with hlt | heq | hgt
  · have hDlt : ma + ρ - mb < ρ := by omega
    rw [BN_cmp, if_pos (by exact_mod_cast hDlt)]
    have hneg : (ma : Int) - mb < 0 := by
      have : (ma : Int) < mb := by exact_mod_cast hlt
      linarith
    rw [Int.sign_eq_neg_one_of_neg hneg]
  · subst heq
    have hD : ma + ρ - ma = ρ := by omega
    rw [hD, BN_cmp, if_neg (lt_irrefl _), if_pos rfl]
    simp
  · have hDgt : ρ < ma + ρ - mb := by omega
    have h1 : ¬ (((ma + ρ - mb : Nat) : Int) < (ρ : Int)) := by
      omega
    have h2 : ¬ (((ma + ρ - mb : Nat) : Int) = (ρ : Int)) := by
      omega
    rw [BN_cmp, if_neg h1, if_neg h2]
    have hpos : (0 : Int) < (ma : Int) - mb := by
      have : (mb : Int) < ma := by exact_mod_cast hgt
      linarith
    rw [Int.sign_eq_one_of_pos hpos]

/-- C3 counterexample: with primes `p = 5`, `q = 7` (`n = 35`, generator
`g = 2`) and `S = 0`, the counters `a = Enc(0)` (ciphertext 1) and
`b = Enc(4)` (ciphertext 16) satisfy the claim's bound
`|a − b| = 4 < n / 2^{S+3} = 35/8`, yet the blinded difference
`0 − 4 + ρ` wraps modulo `n` for every admissible randomizer
(`ρ = 3` here, the only 2-bit value with top bit set and odd), and
`PrivateCompare` returns `+1` instead of `sign(0 − 4) = −1`. -/
theorem private_cmp2_wrap_counterexample :
    4 * 2 ^ (0 + 3) < 35 ∧
      encounter_crypto_openssl_private_cmp2 ⟨35, 2, 1225⟩
          ⟨5, 7, 25, 49, 5, 7, 2, 4, 3⟩ ⟨1, 0⟩ ⟨16, 0⟩ [1] true 3 [1] [1] 0
        = (ENCOUNTER_OK, some 1) ∧
      Int.sign ((0 : Int) - 4) = -1 := by decide

theorem private_cmp2_returns_sign_witness :
    ((3 : Int) - 1 ≤ 2 ^ (0 + 1) ∧ 2 ^ (0 + 1) + 2 ^ (0 + 2) ≤ 35) ∧
      encounter_crypto_openssl_private_cmp2 ⟨35, 2, 1225⟩
          ⟨5, 7, 25, 49, 5, 7, 2, 4, 3⟩ ⟨8, 0⟩ ⟨2, 0⟩ [1] true 3 [1] [1] 0
        = (ENCOUNTER_OK, some (Int.sign ((3 : Int) - 1))) :=
  ⟨⟨by decide, by decide⟩,
    private_cmp2_returns_sign 0 ⟨35, 2, 1225⟩ ⟨5, 7, 25, 49, 5, 7, 2, 4, 3⟩
      ⟨by decide, by decide, by decide, by decide, by decide, by decide,
        by decide, by decide, by decide, by decide, by decide, by decide,
        by decide⟩
      ⟨8, 0⟩ ⟨2, 0⟩ 3 1
      ⟨1, by decide, by decide⟩ ⟨1, by decide, by decide⟩
      (by decide) (by decide) 3 (by decide) (by decide)
      (by decide) (by decide) (by decide)
      [1] [1] [1] 0 1 1 1
      (by decide) (by decide) (by decide)
      (by decide) (by decide) (by decide)⟩

end Encounter
